import Mathlib

/-!
Shallow embedding of the `irk` crate: an IRC-style line codec consisting of

* the message grammar (`src/lib.rs`): `Message`, its `Display` renderer and
  the `Lexer`-based parser (`TryFrom<&str>`);
* the shape-driven serde codec (`src/proto/ser.rs`, `src/proto/de.rs`):
  a token encoder from values and a token decoder driven by a shape
  description with a remaining-required-field counter for optionals.

Text is modelled as `List Char` (the lexer borrows slices of the input;
slicing becomes list splitting).  The serde data model is closed into a
`Value`/`Shape` pair of inductives: the crate's values are serde trees, and
decoding is driven by the target type's shape exactly as the visitor calls
in `de.rs` are driven by the `Deserialize` derive.  Numeric, float and char
scalars follow the identical push-one-token / parse-one-token pattern as the
`bool` and `str` scalars modelled here; the claims under verification only
exercise `bool` and `str`.

Recursion in the decoder is not structural in the Rust source (the sequence
loop re-feeds split fragments through the cursor head), so the decoder takes
a fuel parameter; fuel exhaustion yields a sentinel error that no theorem
below ever reaches (all statements supply adequate fuel).
-/

namespace Irk

/-- Wire text: a borrowed `&str` slice, modelled as a list of characters. -/
abbrev Str := List Char

/-- Rust `str::split_once(sep)`: split at the first occurrence of `sep`,
returning the parts before and after it, or `none` if `sep` is absent. -/
def splitOnce (sep : Char) : Str → Option (Str × Str)
  | [] => Option.none
  | c :: cs =>
    if c = sep then Option.some ([], cs)
    else (splitOnce sep cs).map (fun p => (c :: p.1, p.2))

/-- Rust `[T]::join(",")` on the accumulated per-item token lists of
`SerializeSeq::end` (`ser.rs`): interleave a comma between tokens. -/
def joinComma : List Str → Str
  | [] => []
  | [x] => x
  | x :: y :: xs => x ++ ',' :: joinComma (y :: xs)

/-- The crate's error type.  The repository snapshot carries two copies of
this enum mid-rename: `lib.rs` spells the map-rejection variant
`InvalidType` and `error.rs` spells it `UnsupportedType`; both render as
the text "Unsupported type", and `de.rs` names the `error.rs` spelling.
They are modelled as the single constructor `unsupportedType`.  The
`serialize`/`deserialize` constructors carry the free-text detail string of
`Serialize(String)`/`Deserialize(String)`. -/
inductive Error where
  | eof
  | unsupportedType
  | serialize (detail : Str)
  | deserialize (detail : Str)
deriving DecidableEq, Repr

/-- The parsed message of `lib.rs`: optional source prefix, command, and the
ordered parameter list. -/
structure Message where
  source : Option Str
  command : Str
  parameters : List Str
deriving DecidableEq, Repr

/-- The parameter part of `Message`'s `Display` impl: every parameter except
the last is written as space + token; the last is written as space + colon +
token; nothing is written when there are no parameters. -/
def renderParams : List Str → Str
  | [] => []
  | [p] => ' ' :: ':' :: p
  | p :: q :: ps => (' ' :: p) ++ renderParams (q :: ps)

/-- `Message`'s `Display` impl (`lib.rs`): optional `:source ` prefix, then
the command, then the rendered parameters. -/
def render (m : Message) : Str :=
  (match m.source with
   | Option.some s => ':' :: s ++ [' ']
   | Option.none => []) ++ m.command ++ renderParams m.parameters

/-- `Lexer::read_part` (`lib.rs`): take the substring up to the first space
(the whole input when there is no space), and trim all further leading
spaces off the remainder. -/
def lexReadPart (input : Str) : Str × Str :=
  match splitOnce ' ' input with
  | Option.some (part, rest) => (part, rest.dropWhile (fun c => c = ' '))
  | Option.none => (input, [])

/-- The parameter loop of `Lexer::parse`: stop on empty input; on a leading
colon push the whole rest of the line as the final parameter and stop;
otherwise push one `read_part` token and continue.  The loop consumes at
least one character per iteration, so any fuel of at least the input length
plus one reproduces the Rust loop exactly; the zero-fuel branch is
unreachable from `lexParse`. -/
def lexParamsF : Nat → Str → List Str → List Str
  | 0, _, acc => acc
  | _ + 1, [], acc => acc
  | _ + 1, ':' :: rest, acc => acc ++ [rest]
  | f + 1, c :: cs, acc =>
    let pr := lexReadPart (c :: cs)
    lexParamsF f pr.2 (acc ++ [pr.1])

/-- `Lexer::parse` composed with `TryFrom<&str> for Message` (`lib.rs`):
strip a leading-colon source prefix if present, read the command token, then
run the parameter loop.  The Rust function's return type is `Result` but
every path returns `Ok`. -/
def lexParse (input : Str) : Except Error Message :=
  let sp : Option Str × Str :=
    match input with
    | ':' :: restA =>
      let pr := lexReadPart restA
      (Option.some pr.1, pr.2)
    | _ => (Option.none, input)
  let cp := lexReadPart sp.2
  .ok { source := sp.1, command := cp.1,
        parameters := lexParamsF (cp.2.length + 1) cp.2 [] }

/-- A serde value tree, closed over the constructors the crate's
serializer (`ser.rs`) handles.  `tuple` covers serde tuples, tuple structs
and plain structs (the serializer treats all three identically: serialize
each field in declared order into the shared argument vector).  `mapV`
carries the entries of a map-shaped value; the serializer rejects it
regardless of the entries. -/
inductive Value where
  | bool (b : Bool)
  | str (s : Str)
  | unit
  | none
  | some (v : Value)
  | seq (items : List Value)
  | tuple (fields : List Value)
  | unitVariant (name : Str)
  | newtypeVariant (name : Str) (v : Value)
  | structVariant (name : Str) (fields : List Value)
  | mapV (pairs : List (Value × Value))

mutual
/-- The token encoder of `ser.rs`, returning the tokens this value pushes
onto the serializer's `args` vector.  The Rust methods push into a shared
`Vec<Box<str>>`; since every method only appends, returning the appended
tokens is equivalent.  Cases mirror the `Serializer` impl:
`serialize_bool` pushes "1"/"0"; `serialize_str` pushes the text verbatim;
`serialize_unit` and `serialize_none` push nothing; `serialize_some`
forwards to the inner value; a sequence serializes each item into a fresh
`Serializer` (`SerializeSeq::serialize_element`), concatenates the items'
tokens and pushes the single comma-joined result (`SerializeSeq::end`);
`serialize_unit_variant` pushes the variant name; `serialize_newtype_variant`
and `serialize_struct_variant` push the variant name and then the payload;
`serialize_map` fails with the unsupported-type error. -/
def encode : Value → Except Error (List Str)
  | .bool b => .ok [if b then ['1'] else ['0']]
  | .str s => .ok [s]
  | .unit => .ok []
  | .none => .ok []
  | .some v => encode v
  | .seq items =>
    match encodeList items with
    | .error e => .error e
    | .ok parts => .ok [joinComma parts]
  | .tuple vs => encodeList vs
  | .unitVariant name => .ok [name]
  | .newtypeVariant name v =>
    match encode v with
    | .error e => .error e
    | .ok ts => .ok (name :: ts)
  | .structVariant name vs =>
    match encodeList vs with
    | .error e => .error e
    | .ok ts => .ok (name :: ts)
  | .mapV _ => .error .unsupportedType

/-- Token concatenation over a list of values: used both for tuple/struct
fields (which share one serializer) and for sequence items (each item gets
a fresh serializer whose tokens are then appended to the sequence buffer);
in both cases the produced tokens concatenate in order. -/
def encodeList : List Value → Except Error (List Str)
  | [] => .ok []
  | v :: vs =>
    match encode v with
    | .error e => .error e
    | .ok a =>
      match encodeList vs with
      | .error e => .error e
      | .ok b => .ok (a ++ b)
end

/-- `Serializer::to_message` (`ser.rs`): the first pushed token becomes the
command, the rest the parameters; an empty token list is an `Eof` error. -/
def toMessage (args : List Str) : Except Error Message :=
  match args with
  | [] => .error .eof
  | c :: ps => .ok { source := Option.none, command := c, parameters := ps }

mutual
/-- The shape a `Deserialize` impl drives the decoder with: the decoder's
behaviour depends only on this structure of visitor calls.  `tuple` covers
serde tuples, tuple structs and structs (`deserialize_tuple`,
`deserialize_tuple_struct`, `deserialize_struct` all forward to the same
length-driven code).  `enum` lists the variant names with their payload
shapes.  `map` and `any` are the rejected self-describing shapes. -/
inductive Shape where
  | bool
  | str
  | unit
  | option (s : Shape)
  | seq (s : Shape)
  | tuple (ss : List Shape)
  | enum (vs : List (Str × VarShape))
  | map
  | any

/-- Payload shape of one enum variant: unit variant, newtype variant, or a
struct/tuple variant with a field list (`struct_variant` and
`tuple_variant` both forward to `deserialize_tuple`). -/
inductive VarShape where
  | unitV
  | newtypeV (s : Shape)
  | structV (ss : List Shape)
end

/-- The `Cap` subcommand enum of `proto/mod.rs` as a decoding shape:
variant `Req { caps: &str }` is a struct variant with one text field,
variant `End` is a unit variant.  `rename_all = "UPPERCASE"` is declared
only on `Command`, not on `Cap`, so the serde derive uses `Cap`'s variant
identifiers verbatim as wire tags: the tag strings are `Req` and `End`. -/
def capShape : Shape :=
  .enum [(['R', 'e', 'q'], .structV [.str]), (['E', 'n', 'd'], .unitV)]

/-- The value `Command::Cap(Cap::Req { caps })`: the `CAP` newtype variant
of `Command` (uppercased by `rename_all = "UPPERCASE"` on `Command`)
wrapping the `Req` struct variant of `Cap` (spelled as declared, since
`Cap` has no `rename_all`). -/
def cmdCapReq (caps : Str) : Value :=
  .newtypeVariant ['C', 'A', 'P'] (.structVariant ['R', 'e', 'q'] [.str caps])

/-- The deserializer state of `de.rs`: `Deserializer { input: (Option<&str>,
Vec<&str>), fields: usize }`.  `head` is the command slot (`input.0`), also
reused by the sequence loop to hold split fragments; `rest` holds the
still-unconsumed parameters.  The Rust constructor reverses the parameter
vector and `read_part` pops from its back, which is exactly consumption
from the front of the original order modelled here.  `fields` is the
running count of still-mandatory fields. -/
structure De where
  head : Option Str
  rest : List Str
  fields : Nat
deriving DecidableEq, Repr

/-- `Deserializer::from_message` (`de.rs`): command into the head slot,
parameters as the remaining tokens, field counter zero. -/
def fromMessage (m : Message) : De :=
  { head := Option.some m.command, rest := m.parameters, fields := 0 }

/-- `Deserializer::read_part` (`de.rs`): take the head token if still
present, else pop the next parameter, else fail with `Eof`. -/
def De.readPart (st : De) : Except Error (Str × De) :=
  match st.head with
  | Option.some p => .ok (p, { st with head := Option.none })
  | Option.none =>
    match st.rest with
    | [] => .error .eof
    | t :: ts => .ok (t, { st with rest := ts })

/-- `Deserializer::available` (`de.rs`): one for the untaken head plus the
number of unconsumed parameters. -/
def De.available (st : De) : Nat :=
  (match st.head with
   | Option.some _ => 1
   | Option.none => 0) + st.rest.length

/-- Rust `str::parse::<bool>()` (`FromStr for bool`): accepts exactly
"true" and "false". -/
def parseBool (s : Str) : Option Bool :=
  if s = ['t', 'r', 'u', 'e'] then Option.some true
  else if s = ['f', 'a', 'l', 's', 'e'] then Option.some false
  else Option.none

/-- Detail text of the `ParseBoolError` that `str::parse::<bool>` converts
into `Error::Deserialize` through the `impl_de_error!` bridge in
`error.rs`. -/
def parseBoolErr : Str :=
  ['n', 'o', 't', ' ', 'a', ' ', 'b', 'o', 'o', 'l']

/-- Detail text of serde's `unknown_variant` error, surfaced through
`de::Error::custom` as `Error::Deserialize`. -/
def unknownVariantErr : Str :=
  ['u', 'n', 'k', 'n', 'o', 'w', 'n', ' ', 'v', 'a', 'r', 'i', 'a', 'n', 't']

/-- Sentinel detail text for fuel exhaustion: an artifact of embedding the
decoder's non-structural recursion, never reached at adequate fuel. -/
def outOfFuel : Str := ['f', 'u', 'e', 'l']

/-- `split_once(',').unwrap_or((part, ""))` from the sequence loop of
`de.rs`: the fragment before the first comma and the remainder after it
(the whole token and empty text when there is no comma). -/
def splitOnceComma (part : Str) : Str × Str :=
  match splitOnce ',' part with
  | Option.some pr => pr
  | Option.none => (part, [])

/-- The field loop of `SeqAccess for &mut Deserializer` (`de.rs`), as run
by a `visit_seq` visitor of known arity: decode each field's shape with the
deserializer `dec`, decrementing the mandatory-field counter once after
each field (`next_element_seed`: `let v = seed.deserialize(..)?;
self.fields -= 1`).  Rust's `usize` subtraction is exact here because every
counted field is decremented exactly once; Nat subtraction agrees. -/
def decodeFields (dec : Shape → De → Except Error (Value × De)) :
    List Shape → De → Except Error (List Value × De)
  | [], st => .ok ([], st)
  | s :: ss, st =>
    match dec s st with
    | .error e => .error e
    | .ok (v, st₁) =>
      match decodeFields dec ss { st₁ with fields := st₁.fields - 1 } with
      | .error e => .error e
      | .ok (vs, st₂) => .ok (v :: vs, st₂)

/-- Variant dispatch of `deserialize_enum`/`EnumAccess`/`VariantAccess`
(`de.rs`): the tag has already been read by `deserialize_identifier`; the
`Deserialize` derive matches it against the variant names.  A unit variant
consumes nothing (`unit_variant`); a newtype variant decodes its payload
(`newtype_variant_seed`); a struct or tuple variant forwards to
`deserialize_tuple`, adding its arity to the mandatory-field counter and
decoding the fields.  An unmatched tag is serde's unknown-variant error. -/
def decodeEnum (dec : Shape → De → Except Error (Value × De)) :
    List (Str × VarShape) → Str → De → Except Error (Value × De)
  | [], _, _ => .error (.deserialize unknownVariantErr)
  | (name, pay) :: restV, tag, st =>
    if name = tag then
      match pay with
      | .unitV => .ok (.unitVariant name, st)
      | .newtypeV s =>
        match dec s st with
        | .error e => .error e
        | .ok (v, st₁) => .ok (.newtypeVariant name v, st₁)
      | .structV ss =>
        match decodeFields dec ss { st with fields := st.fields + ss.length } with
        | .error e => .error e
        | .ok (vs, st₁) => .ok (.structVariant name vs, st₁)
    else decodeEnum dec restV tag st

/-- The sequence item loop of `SeqAccess for Sequence` (`de.rs`), as run by
a sequence visitor that collects items until `None`: read one token; an
empty token ends the sequence; otherwise split at the first comma, place
the fragment before it into the cursor head, decode one item with `dec`,
then place the remainder after the comma into the cursor head and
continue.  (On a decode error the Rust code also writes the remainder into
the head before returning the error; the error aborts the whole decode, so
propagating it directly is equivalent.)  Each iteration consumes at least
one character or token from the cursor, so adequate fuel reproduces the
loop; the zero-fuel branch is never reached in the theorems below. -/
def seqItems (dec : Shape → De → Except Error (Value × De)) (s : Shape) :
    Nat → List Value → De → Except Error (List Value × De)
  | 0, _, _ => .error (.deserialize outOfFuel)
  | n + 1, acc, st =>
    match st.readPart with
    | .error e => .error e
    | .ok (part, st₁) =>
      if part = [] then .ok (acc, st₁)
      else
        let pr := splitOnceComma part
        match dec s { st₁ with head := Option.some pr.1 } with
        | .error e => .error e
        | .ok (v, st₂) =>
          seqItems dec s n (acc ++ [v]) { st₂ with head := Option.some pr.2 }

/-- The shape-driven decoder of `de.rs` (`impl de::Deserializer for &mut
Deserializer`), with fuel for the non-structural sequence loop:
`deserialize_bool` parses one token with `FromStr` (`visits_fromstr!`);
`deserialize_str` takes one token verbatim; `deserialize_unit` consumes
nothing; `deserialize_option` decodes the inner value as present when
`available() >= fields` and otherwise yields absent without consuming
anything; `deserialize_seq` runs the comma-splitting item loop;
`deserialize_tuple` (also struct and tuple-struct) adds the arity to the
mandatory-field counter and decodes the fields; `deserialize_enum` reads
the tag token (`deserialize_identifier`) and dispatches on it;
`deserialize_map` and `deserialize_any` fail with the unsupported-type
error. -/
def decodeV : Nat → Shape → De → Except Error (Value × De)
  | 0, _, _ => .error (.deserialize outOfFuel)
  | fuel + 1, sh, st =>
    match sh with
    | .bool =>
      match st.readPart with
      | .error e => .error e
      | .ok (t, st₁) =>
        match parseBool t with
        | Option.some b => .ok (.bool b, st₁)
        | Option.none => .error (.deserialize parseBoolErr)
    | .str =>
      match st.readPart with
      | .error e => .error e
      | .ok (t, st₁) => .ok (.str t, st₁)
    | .unit => .ok (.unit, st)
    | .option s =>
      if st.fields ≤ st.available then
        match decodeV fuel s st with
        | .error e => .error e
        | .ok (v, st₁) => .ok (.some v, st₁)
      else .ok (.none, st)
    | .seq s =>
      match seqItems (decodeV fuel) s (fuel + 1) [] st with
      | .error e => .error e
      | .ok (vs, st₁) => .ok (.seq vs, st₁)
    | .tuple ss =>
      match decodeFields (decodeV fuel) ss
          { st with fields := st.fields + ss.length } with
      | .error e => .error e
      | .ok (vs, st₁) => .ok (.tuple vs, st₁)
    | .enum vs =>
      match st.readPart with
      | .error e => .error e
      | .ok (tag, st₁) => decodeEnum (decodeV fuel) vs tag st₁
    | .map => .error .unsupportedType
    | .any => .error .unsupportedType

/-- The cursor's unconsumed tokens in consumption order: the untaken head
followed by the unconsumed parameters. -/
def De.tokens (st : De) : List Str :=
  (match st.head with
   | Option.some h => [h]
   | Option.none => []) ++ st.rest

/- ### Helper lemmas -/

lemma splitOnce_sep_append (sep : Char) (l r : Str) (hl : sep ∉ l) :
    splitOnce sep (l ++ sep :: r) = Option.some (l, r) := by
  induction l with
  | nil => simp [splitOnce]
  | cons c cs ih =>
    have hc : ¬ c = sep := by
      intro h
      exact hl (by simp [h])
    have hcs : sep ∉ cs := fun h => hl (List.mem_cons_of_mem _ h)
    simp [splitOnce, hc, ih hcs]

lemma splitOnce_not_mem (sep : Char) (l : Str) (hl : sep ∉ l) :
    splitOnce sep l = Option.none := by
  induction l with
  | nil => rfl
  | cons c cs ih =>
    have hc : ¬ c = sep := by
      intro h
      exact hl (by simp [h])
    have hcs : sep ∉ cs := fun h => hl (List.mem_cons_of_mem _ h)
    simp [splitOnce, hc, ih hcs]

lemma dropWhile_space_noop (r : Str) (hr : r = [] ∨ r.head? ≠ Option.some ' ') :
    r.dropWhile (fun c => c = ' ') = r := by
  cases r with
  | nil => rfl
  | cons c cs =>
    have hc : ¬ c = ' ' := by
      rcases hr with h | h
      · cases h
      · intro hcc
        exact h (by simp [hcc])
    simp [List.dropWhile_cons, hc]

lemma lexReadPart_sep (l r : Str) (hl : ' ' ∉ l)
    (hr : r = [] ∨ r.head? ≠ Option.some ' ') :
    lexReadPart (l ++ ' ' :: r) = (l, r) := by
  simp [lexReadPart, splitOnce_sep_append ' ' l r hl, dropWhile_space_noop r hr]

/- ### C9: parsing is total -/

/-- C9.  `Message::try_from` (`Lexer::parse`) returns `Ok` on every input
string; in particular the empty string parses to the message with no
source, empty command and no parameters, even though the signature allows
a parse error. -/
theorem c9_parse_total :
    (∀ input : Str, ∃ m, lexParse input = .ok m) ∧
    lexParse [] =
      .ok { source := Option.none, command := [], parameters := [] } :=
  ⟨fun _ => ⟨_, rfl⟩, rfl⟩

/- ### C1: render/parse round-trip -/

/-- C1 counterexample.  The message with no source, command `"a b"` (a
command containing a space) and the single trailing parameter `"p"`
satisfies the claim's stated conditions (no newline anywhere, a single
trailing parameter with no colon ambiguity), yet rendering and re-parsing
yields a different message: the command is split at its space and its
second half becomes an extra parameter. -/
theorem c1_counterexample :
    lexParse (render { source := Option.none, command := ['a', ' ', 'b'],
                       parameters := [['p']] }) =
      .ok { source := Option.none, command := ['a'],
            parameters := [['b'], ['p']] } ∧
    Message.mk Option.none ['a'] [['b'], ['p']] ≠
      Message.mk Option.none ['a', ' ', 'b'] [['p']] :=
  ⟨rfl, by decide⟩

/-- C1 amended.  For every message with exactly one (trailing) parameter,
rendering with `Display` and re-parsing with `Lexer::parse` yields the
message back — for arbitrary trailing-parameter content, including spaces
and colons — provided additionally that the source, when present, contains
no space and the command is then nonempty, and that the command contains
no space and (when there is no source) is empty or does not begin with a
colon. -/
theorem c1_roundtrip (src : Option Str) (c p : Str)
    (hs : ∀ s, src = Option.some s → ' ' ∉ s)
    (hc : ' ' ∉ c)
    (hcol : src = Option.none → c = [] ∨ c.head? ≠ Option.some ':')
    (hne : ∀ s, src = Option.some s → c ≠ []) :
    lexParse (render { source := src, command := c, parameters := [p] }) =
      .ok { source := src, command := c, parameters := [p] } := by
  have hcmd : lexReadPart (c ++ ' ' :: ':' :: p) = (c, ':' :: p) :=
    lexReadPart_sep c (':' :: p) hc (Or.inr (by simp))
  simp only [List.cons_append, List.append_assoc] at hcmd
  cases src with
  | some s =>
    have hcne : c ≠ [] := hne s rfl
    obtain ⟨c₀, c', rfl⟩ := List.exists_cons_of_ne_nil hcne
    have hc₀ : ¬ c₀ = ' ' := fun h => hc (by simp [h])
    have hsrc : lexReadPart (s ++ ' ' :: (c₀ :: c' ++ ' ' :: ':' :: p)) =
        (s, c₀ :: c' ++ ' ' :: ':' :: p) :=
      lexReadPart_sep s _ (hs s rfl) (Or.inr (by simp [hc₀]))
    simp only [List.cons_append, List.append_assoc] at hsrc hcmd
    simp only [render, renderParams]
    simp only [List.cons_append, List.append_assoc, List.nil_append,
      List.singleton_append]
    simp [lexParse, hsrc, hcmd, lexParamsF]
  | none =>
    cases c with
    | nil =>
      simp only [render, renderParams, List.nil_append]
      simp [lexParse, lexReadPart, splitOnce, dropWhile_space_noop,
        lexParamsF]
    | cons c₀ c' =>
      have hc₀ : ¬ c₀ = ':' := by
        rcases hcol rfl with h | h
        · cases h
        · intro hcc
          exact h (by simp [hcc])
      simp only [List.cons_append, List.append_assoc] at hcmd
      simp only [render, renderParams, List.nil_append, List.cons_append]
      simp [lexParse, hcmd, lexParamsF, hc₀]

/-- C1 witness: the amended round-trip applied at a concrete message whose
lone parameter contains a space and a colon. -/
theorem c1_roundtrip_witness :
    lexParse (render { source := Option.some ['s'], command := ['C'],
                       parameters := [['h', 'i', ' ', ':', 'x']] }) =
      .ok { source := Option.some ['s'], command := ['C'],
            parameters := [['h', 'i', ' ', ':', 'x']] } :=
  c1_roundtrip (Option.some ['s']) ['C'] ['h', 'i', ' ', ':', 'x']
    (by intro s h; cases h; simp)
    (by simp)
    (by intro h; cases h)
    (by intro s h; cases h; simp)

/- Per-constructor unfolding equations for `decodeV` at successor fuel;
stated separately so that rewriting can target one shape constructor
without unfolding the decoder under abstract shapes. -/

lemma decodeV_str_eq (fuel : Nat) (st : De) :
    decodeV (fuel + 1) .str st =
      match st.readPart with
      | .error e => .error e
      | .ok (t, st₁) => .ok (.str t, st₁) := rfl

lemma decodeV_tuple_eq (fuel : Nat) (ss : List Shape) (st : De) :
    decodeV (fuel + 1) (.tuple ss) st =
      match decodeFields (decodeV fuel) ss
          { st with fields := st.fields + ss.length } with
      | .error e => .error e
      | .ok (vs, st₁) => .ok (.tuple vs, st₁) := rfl

lemma decodeV_option_if (fuel : Nat) (s : Shape) (st : De) :
    decodeV (fuel + 1) (.option s) st =
      if st.fields ≤ st.available then
        match decodeV fuel s st with
        | .error e => .error e
        | .ok (v, st₁) => .ok (.some v, st₁)
      else .ok (.none, st) := rfl

lemma decodeV_option_le (fuel : Nat) (s : Shape) (st : De)
    (h : st.fields ≤ st.available) :
    decodeV (fuel + 1) (.option s) st =
      match decodeV fuel s st with
      | .error e => .error e
      | .ok (v, st₁) => .ok (.some v, st₁) := by
  rw [decodeV_option_if, if_pos h]

lemma decodeV_option_gt (fuel : Nat) (s : Shape) (st : De)
    (h : st.available < st.fields) :
    decodeV (fuel + 1) (.option s) st = .ok (.none, st) := by
  rw [decodeV_option_if, if_neg (by omega)]

lemma decodeV_seq_eq (fuel : Nat) (s : Shape) (st : De) :
    decodeV (fuel + 1) (.seq s) st =
      match seqItems (decodeV fuel) s (fuel + 1) [] st with
      | .error e => .error e
      | .ok (vs, st₁) => .ok (.seq vs, st₁) := rfl

/- ### C3: optional-field round-trip -/

/-- A value/shape pair that occupies exactly one wire token: encoding
produces exactly one token, and decoding that token from either cursor
position (head slot or next parameter) consumes exactly it and returns the
value, independently of the field counter.  Text values are the canonical
inhabitants; `bool` values are not (see C6). -/
def Atom (v : Value) (s : Shape) (t : Str) : Prop :=
  encode v = .ok [t] ∧
  ∀ (fuel : Nat) (r : List Str) (f : Nat),
    decodeV (fuel + 1) s { head := Option.some t, rest := r, fields := f } =
      .ok (v, { head := Option.none, rest := r, fields := f }) ∧
    decodeV (fuel + 1) s { head := Option.none, rest := t :: r, fields := f } =
      .ok (v, { head := Option.none, rest := r, fields := f })

lemma atom_str (t : Str) : Atom (.str t) .str t :=
  ⟨rfl, fun _ _ _ => ⟨rfl, rfl⟩⟩

/-- C3 counterexample.  Take `A` the text `"a"` and `B` the unit value:
encoding the tuple `(A, Some(B))` produces only the token `"a"` because
`serialize_unit` pushes nothing, and decoding those tokens against the
shape `(Str, Optional(Unit))` yields `None` for the optional field — not
`Some(B)` — since no extra token is left beyond the mandatory count.  The
claim's unrestricted quantification over values therefore fails. -/
theorem c3_counterexample :
    encode (.tuple [.str ['a'], .some Value.unit]) = .ok [['a']] ∧
    decodeV 9 (.tuple [.str, .option .unit])
        { head := Option.some ['a'], rest := [], fields := 0 } =
      .ok (.tuple [.str ['a'], Value.none],
           { head := Option.none, rest := [], fields := 0 }) ∧
    Value.tuple [.str ['a'], Value.none] ≠
      Value.tuple [.str ['a'], .some Value.unit] :=
  ⟨rfl, rfl, by simp⟩

/-- C3 amended.  For every pair of values `A`, `B` that each occupy exactly
one wire token and round-trip through it (`Atom`), encoding `(A, Some B)`
yields the two tokens and decoding them against `(shape A, Optional (shape
B))` returns `Some B`; encoding `(A, None)` appends no token at all for
the absent optional (no sentinel) and decoding yields `None`.  (The
original claim's unrestricted `B` fails when `B`'s encoding produces zero
tokens, see the counterexample.) -/
theorem c3_optional_roundtrip (A B : Value) (sa sb : Shape) (ta tb : Str)
    (hA : Atom A sa ta) (hB : Atom B sb tb) :
    encode (.tuple [A, .some B]) = .ok [ta, tb] ∧
    (∀ fuel, decodeV (fuel + 3) (.tuple [sa, .option sb])
        { head := Option.some ta, rest := [tb], fields := 0 } =
      .ok (.tuple [A, .some B],
           { head := Option.none, rest := [], fields := 0 })) ∧
    encode (.tuple [A, Value.none]) = .ok [ta] ∧
    (∀ fuel, decodeV (fuel + 3) (.tuple [sa, .option sb])
        { head := Option.some ta, rest := [], fields := 0 } =
      .ok (.tuple [A, Value.none],
           { head := Option.none, rest := [], fields := 0 })) := by
  refine ⟨?_, ?_, ?_, ?_⟩
  · simp [encode, encodeList, hA.1, hB.1]
  · intro fuel
    have h1 := (hA.2 (fuel + 1) [tb] 2).1
    have h2 := (hB.2 fuel [] 1).2
    have hopt : decodeV (fuel + 1 + 1) (.option sb)
        { head := Option.none, rest := [tb], fields := 1 } =
        .ok (.some B, { head := Option.none, rest := [], fields := 1 }) := by
      rw [decodeV_option_le _ _ _ (by simp [De.available])]
      rw [h2]
    show decodeV (fuel + 1 + 1 + 1) (.tuple [sa, .option sb])
        { head := Option.some ta, rest := [tb], fields := 0 } = _
    rw [decodeV_tuple_eq]
    simp only [decodeFields, List.length_cons, List.length_nil,
      Nat.zero_add]
    rw [h1]
    norm_num
    rw [hopt]
    simp
  · simp [encode, encodeList, hA.1]
  · intro fuel
    have h1 := (hA.2 (fuel + 1) [] 2).1
    have hopt : decodeV (fuel + 1 + 1) (.option sb)
        { head := Option.none, rest := [], fields := 1 } =
        .ok (.none, { head := Option.none, rest := [], fields := 1 }) :=
      decodeV_option_gt _ _ _ (by simp [De.available])
    show decodeV (fuel + 1 + 1 + 1) (.tuple [sa, .option sb])
        { head := Option.some ta, rest := [], fields := 0 } = _
    rw [decodeV_tuple_eq]
    simp only [decodeFields, List.length_cons, List.length_nil,
      Nat.zero_add]
    rw [h1]
    norm_num
    rw [hopt]
    simp

/-- C3 witness: the amended round-trip applied at the text atoms `"a"` and
`"b"`. -/
theorem c3_optional_roundtrip_witness :
    encode (.tuple [.str ['a'], .some (.str ['b'])]) = .ok [['a'], ['b']] ∧
    decodeV 9 (.tuple [.str, .option .str])
        { head := Option.some ['a'], rest := [['b']], fields := 0 } =
      .ok (.tuple [.str ['a'], .some (.str ['b'])],
           { head := Option.none, rest := [], fields := 0 }) ∧
    encode (.tuple [.str ['a'], Value.none]) = .ok [['a']] ∧
    decodeV 9 (.tuple [.str, .option .str])
        { head := Option.some ['a'], rest := [], fields := 0 } =
      .ok (.tuple [.str ['a'], Value.none],
           { head := Option.none, rest := [], fields := 0 }) := by
  have h := c3_optional_roundtrip (.str ['a']) (.str ['b']) .str .str
    ['a'] ['b'] (atom_str ['a']) (atom_str ['b'])
  exact ⟨h.1, h.2.1 6, h.2.2.1, h.2.2.2 6⟩

/- ### C4: sequence encoding/decoding -/

lemma encodeList_of_forall₂ (items : List Value) (tls : List (List Str))
    (h : List.Forall₂ (fun v ts => encode v = .ok ts) items tls) :
    encodeList items = .ok tls.flatten := by
  induction h with
  | nil => rfl
  | cons hv _ ih =>
    simp only [encodeList, hv, ih, List.flatten_cons]

/-- C4.  Encoding a sequence produces exactly one token: the comma-join of
the concatenated tokens obtained by encoding each item into its own fresh
serializer (stated via `Forall₂`: item `i` alone produces token list
`tls i`).  Concretely, the text sequence `["ops","sasl"]` encodes to the
single token `"ops,sasl"`; decoding that token against `Sequence(Text)`
yields `["ops","sasl"]` back, and decoding the empty-string token yields
the empty sequence. -/
theorem c4_sequence_single_token :
    (∀ (items : List Value) (tls : List (List Str)),
        List.Forall₂ (fun v ts => encode v = .ok ts) items tls →
        encode (.seq items) = .ok [joinComma tls.flatten]) ∧
    encode (.seq [.str ['o', 'p', 's'], .str ['s', 'a', 's', 'l']]) =
      .ok [['o', 'p', 's', ',', 's', 'a', 's', 'l']] ∧
    decodeV 9 (.seq .str)
        { head := Option.some ['o', 'p', 's', ',', 's', 'a', 's', 'l'],
          rest := [], fields := 0 } =
      .ok (.seq [.str ['o', 'p', 's'], .str ['s', 'a', 's', 'l']],
           { head := Option.none, rest := [], fields := 0 }) ∧
    decodeV 9 (.seq .str)
        { head := Option.some [], rest := [], fields := 0 } =
      .ok (.seq [], { head := Option.none, rest := [], fields := 0 }) := by
  refine ⟨?_, rfl, rfl, rfl⟩
  intro items tls h
  simp only [encode, encodeList_of_forall₂ items tls h]

/-- C4 witness: the general single-token clause applied to the concrete
item list `["ops","sasl"]`, each item encoding to its own token list. -/
theorem c4_sequence_single_token_witness :
    encode (.seq [.str ['o', 'p', 's'], .str ['s', 'a', 's', 'l']]) =
      .ok [joinComma ([[['o', 'p', 's']], [['s', 'a', 's', 'l']]] :
        List (List Str)).flatten] :=
  c4_sequence_single_token.1
    [.str ['o', 'p', 's'], .str ['s', 'a', 's', 'l']]
    [[['o', 'p', 's']], [['s', 'a', 's', 'l']]]
    (List.Forall₂.cons rfl (List.Forall₂.cons rfl List.Forall₂.nil))

/- ### C5: sequence items with several fields -/

lemma decode_two_str (fuel : Nat) (h t : Str) (r : List Str) (f : Nat) :
    decodeV (fuel + 1 + 1) (.tuple [.str, .str])
        { head := Option.some h, rest := t :: r, fields := f } =
      .ok (.tuple [.str h, .str t],
           { head := Option.none, rest := r, fields := f }) := by
  rw [decodeV_tuple_eq]
  simp [decodeFields, decodeV_str_eq, De.readPart]

/-- C5 counterexample.  Decoding the sequence token `"a,b,c,d"` with
two-field items and outer parameters `["X","Y","Z","W"]`: the first item
decodes as `("a","X")` — its second field is taken from the outer
parameter cursor — not `("a","b")` as the flat-pool claim predicts; the
split segments only ever feed the first field of each item. -/
theorem c5_counterexample :
    decodeV 20 (.seq (.tuple [.str, .str]))
        { head := Option.some ['a', ',', 'b', ',', 'c', ',', 'd'],
          rest := [['X'], ['Y'], ['Z'], ['W']], fields := 0 } =
      .ok (.seq [.tuple [.str ['a'], .str ['X']],
                 .tuple [.str ['b'], .str ['Y']],
                 .tuple [.str ['c'], .str ['Z']],
                 .tuple [.str ['d'], .str ['W']]],
           { head := Option.none, rest := [], fields := 0 }) ∧
    Value.tuple [.str ['a'], .str ['X']] ≠
      Value.tuple [.str ['a'], .str ['b']] :=
  ⟨rfl, by simp⟩

/-- C5 amended.  For a sequence of two-field items, each comma-split
segment supplies only the first field of its item; the second field is
consumed from the outer parameter cursor, and the split remainder becomes
the head token for the next item: token `"a,b"` with outer parameters
`x :: y :: pool` decodes to the items `(a, x)` and `(b, y)`, leaving
`pool`. -/
theorem c5_outer_pool (fuel : Nat) (a b x y : Str) (pool : List Str)
    (f : Nat) (ha : ',' ∉ a) (ha0 : a ≠ []) (hb : ',' ∉ b) (hb0 : b ≠ []) :
    decodeV (fuel + 1 + 1 + 1 + 1) (.seq (.tuple [.str, .str]))
        { head := Option.some (a ++ ',' :: b), rest := x :: y :: pool,
          fields := f } =
      .ok (.seq [.tuple [.str a, .str x], .tuple [.str b, .str y]],
           { head := Option.none, rest := pool, fields := f }) := by
  have hsplit1 : splitOnceComma (a ++ ',' :: b) = (a, b) := by
    simp [splitOnceComma, splitOnce_sep_append ',' a b ha]
  have hsplit2 : splitOnceComma b = (b, []) := by
    simp [splitOnceComma, splitOnce_not_mem ',' b hb]
  rw [decodeV_seq_eq]
  simp [seqItems, De.readPart, hsplit1, hsplit2, ha0, hb0, decode_two_str]

/-- C5 witness: the amended statement at the token `"a,b"` with outer
parameters `["X","Y"]`. -/
theorem c5_outer_pool_witness :
    decodeV 4 (.seq (.tuple [.str, .str]))
        { head := Option.some ['a', ',', 'b'], rest := [['X'], ['Y']],
          fields := 0 } =
      .ok (.seq [.tuple [.str ['a'], .str ['X']],
                 .tuple [.str ['b'], .str ['Y']]],
           { head := Option.none, rest := [], fields := 0 }) :=
  c5_outer_pool 0 ['a'] ['b'] ['X'] ['Y'] [] 0
    (by decide) (by decide) (by decide) (by decide)

/- ### C6: boolean round-trip -/

/-- C6 (code bug).  `serialize_bool` pushes `"1"`/`"0"`, but
`deserialize_bool` parses the token with Rust's `FromStr for bool`, which
accepts only `"true"`/`"false"`; decoding a serialized boolean therefore
always fails with a `Deserialize` error instead of round-tripping. -/
theorem c6_bool_not_roundtrip :
    ∀ b : Bool,
      encode (.bool b) = .ok [if b then ['1'] else ['0']] ∧
      decodeV 9 .bool
          { head := Option.some (if b then ['1'] else ['0']),
            rest := [], fields := 0 } =
        .error (.deserialize parseBoolErr) := by
  intro b
  cases b
  · exact ⟨rfl, rfl⟩
  · exact ⟨rfl, rfl⟩

/- ### C7: tagged-union tokens -/

/-- C7 (code bug).  `rename_all = "UPPERCASE"` is declared on `Command`
only, so `Cap`'s variant tag on the wire is `"Req"`, not `"REQ"`:
encoding `Command::Cap(Cap::Req{caps:"sasl"})` produces the tokens
`["CAP","Req","sasl"]`, decoding the parameter tokens `["REQ","sasl"]`
against the `Cap` shape fails with serde's unknown-variant error, and only
the tag spelling `"Req"` decodes to the `Req` variant. -/
theorem c7_cap_req_tag :
    encode (cmdCapReq ['s', 'a', 's', 'l']) =
      .ok [['C', 'A', 'P'], ['R', 'e', 'q'], ['s', 'a', 's', 'l']] ∧
    (['R', 'e', 'q'] : Str) ≠ ['R', 'E', 'Q'] ∧
    decodeV 9 capShape
        { head := Option.none, rest := [['R', 'E', 'Q'], ['s', 'a', 's', 'l']],
          fields := 0 } =
      .error (.deserialize unknownVariantErr) ∧
    decodeV 9 capShape
        { head := Option.none, rest := [['R', 'e', 'q'], ['s', 'a', 's', 'l']],
          fields := 0 } =
      .ok (.structVariant ['R', 'e', 'q'] [.str ['s', 'a', 's', 'l']],
           { head := Option.none, rest := [], fields := 0 }) :=
  ⟨rfl, by decide, rfl, rfl⟩

/- ### C8: map rejection -/

/-- C8.  Map-shaped values are rejected on both sides, regardless of input:
`serialize_map` fails with the unsupported-type error before writing
anything, and `deserialize_map`/`deserialize_any` fail with the same error
for every cursor state (the `Except` result carries no partial output). -/
theorem c8_map_rejection :
    (∀ pairs, encode (.mapV pairs) = .error .unsupportedType) ∧
    (∀ (fuel : Nat) (st : De),
      decodeV (fuel + 1) .map st = .error .unsupportedType) ∧
    (∀ (fuel : Nat) (st : De),
      decodeV (fuel + 1) .any st = .error .unsupportedType) :=
  ⟨fun _ => rfl, fun _ _ => rfl, fun _ _ => rfl⟩

/- ### C2: lookahead-free optionality -/

lemma De.tokens_set_fields (st : De) (n : Nat) :
    ({ st with fields := n } : De).tokens = st.tokens := rfl

lemma De.available_eq_length (st : De) :
    st.available = st.tokens.length := by
  cases h : st.head <;> simp [De.available, De.tokens, h, Nat.add_comm]

lemma readPart_of_tokens (st : De) (t : Str) (ts : List Str)
    (h : st.tokens = t :: ts) :
    ∃ st', st.readPart = .ok (t, st') ∧ st'.tokens = ts ∧
      st'.fields = st.fields := by
  cases hh : st.head with
  | some p =>
    have hp : p = t ∧ st.rest = ts := by
      have h' := h
      simp only [De.tokens, hh, List.singleton_append, List.cons.injEq] at h'
      exact h'
    refine ⟨{ st with head := Option.none }, ?_, ?_, rfl⟩
    · simp [De.readPart, hh, hp.1]
    · simp [De.tokens, hp.2]
  | none =>
    have hr : st.rest = t :: ts := by
      have h' := h
      simp only [De.tokens, hh, List.nil_append] at h'
      exact h'
    refine ⟨{ st with rest := ts }, ?_, ?_, rfl⟩
    · simp [De.readPart, hh, hr]
    · simp [De.tokens, hh]

lemma decode_str_of_tokens (fuel : Nat) (st : De) (t : Str) (ts : List Str)
    (h : st.tokens = t :: ts) :
    ∃ st', decodeV (fuel + 1) .str st = .ok (.str t, st') ∧
      st'.tokens = ts ∧ st'.fields = st.fields := by
  obtain ⟨st', h1, h2, h3⟩ := readPart_of_tokens st t ts h
  exact ⟨st', by rw [decodeV_str_eq, h1], h2, h3⟩

lemma c2aux_present (fuel : Nat) (ms : List Shape) :
    ∀ (st : De) (pre : List Str) (u : Str) (ts : List Str),
      (∀ x ∈ ms, x = Shape.str) → st.tokens = pre ++ u :: ts →
      pre.length = ms.length → st.fields = ms.length + 1 →
      ∃ st', decodeFields (decodeV (fuel + 1 + 1)) (ms ++ [.option .str]) st =
          .ok (pre.map Value.str ++ [.some (.str u)], st') ∧
        st'.tokens = ts ∧ st'.fields = 0 := by
  induction ms with
  | nil =>
    intro st pre u ts _ htok hlen hf
    have hpre : pre = [] := List.eq_nil_of_length_eq_zero (by simpa using hlen)
    subst hpre
    simp only [List.nil_append] at htok
    simp only [List.length_nil, Nat.zero_add] at hf
    obtain ⟨st₁, hrp, htok₁, hf₁⟩ := decode_str_of_tokens fuel st u ts htok
    have hcond : st.fields ≤ st.available := by
      rw [De.available_eq_length, htok, hf]
      simp
    have hopt : decodeV (fuel + 1 + 1) (.option .str) st =
        .ok (.some (.str u), st₁) := by
      rw [decodeV_option_le _ _ _ hcond, hrp]
    refine ⟨{ st₁ with fields := st₁.fields - 1 }, ?_, ?_, ?_⟩
    · simp [decodeFields, hopt]
    · rw [De.tokens_set_fields]
      exact htok₁
    · simp [hf₁, hf]
  | cons m ms' ih =>
    intro st pre u ts hall htok hlen hf
    have hm : m = Shape.str := hall m (by simp)
    subst hm
    cases pre with
    | nil =>
      simp only [List.length_nil, List.length_cons] at hlen
      omega
    | cons t pre' =>
      simp only [List.length_cons] at hlen hf
      simp only [List.cons_append] at htok
      obtain ⟨st₁, hrp, htok₁, hf₁⟩ :=
        decode_str_of_tokens (fuel + 1) st t (pre' ++ u :: ts) htok
      obtain ⟨st', hdf, hts, hf0⟩ :=
        ih { st₁ with fields := st₁.fields - 1 } pre' u ts
          (fun x hx => hall x (List.mem_cons_of_mem _ hx))
          (by rw [De.tokens_set_fields]; exact htok₁)
          (by omega)
          (by show st₁.fields - 1 = ms'.length + 1; omega)
      refine ⟨st', ?_, hts, hf0⟩
      simp [decodeFields, hrp, hdf]

lemma c2aux_absent (fuel : Nat) (ms : List Shape) :
    ∀ (st : De) (pre : List Str),
      (∀ x ∈ ms, x = Shape.str) → st.tokens = pre →
      pre.length = ms.length → st.fields = ms.length + 1 →
      ∃ st', decodeFields (decodeV (fuel + 1 + 1)) (ms ++ [.option .str]) st =
          .ok (pre.map Value.str ++ [Value.none], st') ∧
        st'.tokens = [] ∧ st'.fields = 0 := by
  induction ms with
  | nil =>
    intro st pre _ htok hlen hf
    have hpre : pre = [] := List.eq_nil_of_length_eq_zero (by simpa using hlen)
    subst hpre
    simp only [List.length_nil, Nat.zero_add] at hf
    have hcond : st.available < st.fields := by
      rw [De.available_eq_length, htok, hf]
      simp
    have hopt : decodeV (fuel + 1 + 1) (.option .str) st =
        .ok (.none, st) := decodeV_option_gt _ _ _ hcond
    refine ⟨{ st with fields := st.fields - 1 }, ?_, ?_, ?_⟩
    · simp [decodeFields, hopt]
    · rw [De.tokens_set_fields]
      exact htok
    · simp [hf]
  | cons m ms' ih =>
    intro st pre hall htok hlen hf
    have hm : m = Shape.str := hall m (by simp)
    subst hm
    cases pre with
    | nil =>
      simp only [List.length_nil, List.length_cons] at hlen
      omega
    | cons t pre' =>
      simp only [List.length_cons] at hlen hf
      obtain ⟨st₁, hrp, htok₁, hf₁⟩ :=
        decode_str_of_tokens (fuel + 1) st t pre' htok
      obtain ⟨st', hdf, hts, hf0⟩ :=
        ih { st₁ with fields := st₁.fields - 1 } pre'
          (fun x hx => hall x (List.mem_cons_of_mem _ hx))
          (by rw [De.tokens_set_fields]; exact htok₁)
          (by omega)
          (by show st₁.fields - 1 = ms'.length + 1; omega)
      refine ⟨st', ?_, hts, hf0⟩
      simp [decodeFields, hrp, hdf]

/-- C2.  The decoder's lookahead-free optionality rule.  Parts one and two:
at an `Optional(inner)` field the decoder decodes the inner value exactly
when the remaining token count (`available`: command-if-untaken plus
unconsumed parameters) is at least the running still-mandatory-field
counter — which at that point still counts this optional field, since
`next_element_seed` only decrements after the field completes — and
otherwise yields absent without consuming any token or changing any state.
Parts three and four exercise the counter bookkeeping end to end: for a
tuple of `n` mandatory text fields followed by a trailing optional text
field (counter set to `n + 1` on entry, decremented once per consumed
field), the optional decodes as present exactly when more than `n` tokens
remain, and as absent when exactly `n` remain. -/
theorem c2_option_lookahead :
    (∀ (fuel : Nat) (s : Shape) (st : De), st.fields ≤ st.available →
        decodeV (fuel + 1) (.option s) st =
          match decodeV fuel s st with
          | .error e => .error e
          | .ok (v, st₁) => .ok (.some v, st₁)) ∧
    (∀ (fuel : Nat) (s : Shape) (st : De), st.available < st.fields →
        decodeV (fuel + 1) (.option s) st = .ok (.none, st)) ∧
    (∀ (fuel : Nat) (ms : List Shape) (st : De) (pre : List Str) (u : Str)
        (ts : List Str), (∀ x ∈ ms, x = Shape.str) →
        st.tokens = pre ++ u :: ts → pre.length = ms.length →
        st.fields = 0 →
        ∃ st', decodeV (fuel + 1 + 1 + 1) (.tuple (ms ++ [.option .str])) st =
            .ok (.tuple (pre.map Value.str ++ [.some (.str u)]), st') ∧
          st'.tokens = ts) ∧
    (∀ (fuel : Nat) (ms : List Shape) (st : De) (pre : List Str),
        (∀ x ∈ ms, x = Shape.str) → st.tokens = pre →
        pre.length = ms.length → st.fields = 0 →
        ∃ st', decodeV (fuel + 1 + 1 + 1) (.tuple (ms ++ [.option .str])) st =
            .ok (.tuple (pre.map Value.str ++ [Value.none]), st') ∧
          st'.tokens = []) := by
  refine ⟨fun fuel s st h => decodeV_option_le fuel s st h,
    fun fuel s st h => decodeV_option_gt fuel s st h, ?_, ?_⟩
  · intro fuel ms st pre u ts hall htok hlen hf
    obtain ⟨st', hdf, hts, _⟩ :=
      c2aux_present fuel ms { st with fields := ms.length + 1 } pre u ts
        hall (by rw [De.tokens_set_fields]; exact htok) hlen rfl
    refine ⟨st', ?_, hts⟩
    rw [decodeV_tuple_eq]
    have harity : st.fields + (ms ++ [Shape.option .str]).length =
        ms.length + 1 := by
      simp [hf]
    rw [harity, hdf]
  · intro fuel ms st pre hall htok hlen hf
    obtain ⟨st', hdf, hts, _⟩ :=
      c2aux_absent fuel ms { st with fields := ms.length + 1 } pre
        hall (by rw [De.tokens_set_fields]; exact htok) hlen rfl
    refine ⟨st', ?_, hts⟩
    rw [decodeV_tuple_eq]
    have harity : st.fields + (ms ++ [Shape.option .str]).length =
        ms.length + 1 := by
      simp [hf]
    rw [harity, hdf]

/-- C2 witness: the end-to-end clauses applied to one mandatory text field
before a trailing optional text field, with two tokens available (optional
present) and with one token available (optional absent, nothing
consumed). -/
theorem c2_option_lookahead_witness :
    (∃ st', decodeV 9 (.tuple [.str, .option .str])
        { head := Option.some ['a'], rest := [['b']], fields := 0 } =
      .ok (.tuple [.str ['a'], .some (.str ['b'])], st') ∧
      st'.tokens = []) ∧
    (∃ st', decodeV 9 (.tuple [.str, .option .str])
        { head := Option.some ['a'], rest := [], fields := 0 } =
      .ok (.tuple [.str ['a'], Value.none], st') ∧ st'.tokens = []) := by
  constructor
  · obtain ⟨st', h1, h2⟩ := c2_option_lookahead.2.2.1 6 [.str]
      { head := Option.some ['a'], rest := [['b']], fields := 0 }
      [['a']] ['b'] [] (by simp) rfl rfl rfl
    exact ⟨st', h1, h2⟩
  · obtain ⟨st', h1, h2⟩ := c2_option_lookahead.2.2.2 6 [.str]
      { head := Option.some ['a'], rest := [], fields := 0 }
      [['a']] (by simp) rfl rfl rfl
    exact ⟨st', h1, h2⟩

/- ### C10: empty-text sequence collapse -/

/-- C10.  A one-element sequence whose element is the empty text encodes to
the same single empty token as the empty sequence, and decoding that token
yields the empty sequence: sequences of empty-text elements are
indistinguishable from the empty sequence on the wire and do not
round-trip. -/
theorem c10_empty_collapse :
    encode (.seq [.str []]) = .ok [[]] ∧
    encode (.seq []) = .ok [[]] ∧
    decodeV 9 (.seq .str)
        { head := Option.some [], rest := [], fields := 0 } =
      .ok (.seq [], { head := Option.none, rest := [], fields := 0 }) ∧
    Value.seq [] ≠ Value.seq [.str []] :=
  ⟨rfl, rfl, rfl, by simp⟩

end Irk
